import Mathlib

/-!
Verification development for the geochem drillhole backend.

This file gives a shallow embedding, over exact rational arithmetic, of the
two algorithmic engines of the repository:

* the desurvey engine (`src/backend/app/core/drillhole_manager.py` and
  `drillhole_manager_optimized.py`): balanced-tangential trajectory
  integration, depth-0 station synthesis, midpoint interpolation, the
  per-hole catch-and-continue loop, and the optimized manager's final
  `drop_duplicates` pass;
* the interval matcher (`src/backend/app/core/interval_matcher.py`):
  the per-hole overlap-percentage matrix, the three merge strategies, and
  chunked processing of large holes.

NumPy floating-point arithmetic is idealized as `ℚ`; the trigonometric maps
`np.cos ∘ np.radians` and `np.sin ∘ np.radians` are abstracted as parameters
`cosD sinD : ℚ → ℚ` (taking the average angle in degrees), so every theorem
quantifying over them holds in particular for the real interpretations.
Python exceptions raised while processing one hole are modelled by the
`Except Unit` error channel: a cell that `float()` cannot parse is a
`Val.txt` and makes the per-hole computation return `.error ()`.
-/

namespace Geochem

/-! ## Generic list helpers used by the embedding -/

/-- `np.cumsum`: running sums of a list. -/
def cumsum : List ℚ → List ℚ
  | [] => []
  | x :: xs => x :: (cumsum xs).map (fun y => x + y)

/-- `np.concatenate([[start], start + np.cumsum(ds)])` — one coordinate axis
of the trajectory (drillhole_manager.py lines 190–192). -/
def coordAxis (start : ℚ) (ds : List ℚ) : List ℚ :=
  start :: (cumsum ds).map (fun y => start + y)

/-- Contiguous chunks of size `n`, mirroring
`for start in range(0, len(a_from), chunk_size)` slicing in
`_match_hole_chunked` (interval_matcher.py lines 389–394). -/
def chunksOf (n : ℕ) : List α → List (List α)
  | [] => []
  | x :: xs => (x :: xs.take (n - 1)) :: chunksOf n (xs.drop (n - 1))
  termination_by l => l.length
  decreasing_by simp [List.length_drop]; omega

/-- `pandas.DataFrame.drop_duplicates`: keep the first occurrence of each
value, drop later exact duplicates. -/
def dropDuplicates [DecidableEq α] : List α → List α
  | [] => []
  | x :: xs => x :: dropDuplicates (xs.filter (fun y => y ≠ x))
  termination_by l => l.length
  decreasing_by
    have := List.length_filter_le (fun y => decide ¬y = x) xs
    simp at this ⊢; omega

/-- `np.argmax`: index of the first occurrence of the maximum value
(0 on the empty list). -/
def argmaxFirst : List ℚ → ℕ
  | [] => 0
  | [_] => 0
  | x :: y :: ys =>
      if (y :: ys).getD (argmaxFirst (y :: ys)) 0 ≤ x then 0
      else argmaxFirst (y :: ys) + 1

/-- `np.max` over a nonempty list (0 on the empty list). -/
def listMax : List ℚ → ℚ
  | [] => 0
  | x :: xs => xs.foldl max x

/-- Stable insertion of `x` into a list, before the first element `y` with
`le x y`. -/
def insertAsc (le : α → α → Bool) (x : α) : List α → List α
  | [] => [x]
  | y :: ys => if le x y then x :: y :: ys else y :: insertAsc le x ys

/-- Stable sort by the boolean comparison `le`, modelling
`DataFrame.sort_values` / Python `sorted`. -/
def sortBy (le : α → α → Bool) : List α → List α
  | [] => []
  | x :: xs => insertAsc le x (sortBy le xs)

/-- Lexicographic comparison of lists of naturals. -/
def natListLe : List ℕ → List ℕ → Bool
  | [], _ => true
  | _ :: _, [] => false
  | a :: as, b :: bs => if a < b then true else if b < a then false else natListLe as bs

/-- Python `str` ordering: lexicographic by character code points. -/
def strLe (a b : String) : Bool :=
  natListLe (a.data.map Char.toNat) (b.data.map Char.toNat)

/-- Python `sorted(set(xs))`: the distinct values in ascending order. -/
def sortDedup (l : List String) : List String :=
  sortBy strLe (dropDuplicates l)

/-- `np.interp x xp fp` on the point list `xp.zip fp`: clamp to the first
value below the range, clamp to the last value above it, linear
interpolation in between. -/
def interp (x : ℚ) : List (ℚ × ℚ) → ℚ
  | [] => 0
  | [(_, f)] => f
  | (x0, f0) :: (x1, f1) :: rest =>
      if x ≤ x0 then f0
      else if x ≤ x1 then f0 + (f1 - f0) * (x - x0) / (x1 - x0)
      else interp x ((x1, f1) :: rest)

/-! ## Desurvey engine (drillhole_manager.py / drillhole_manager_optimized.py)

Table cells are either numeric or text; `float()` on a text cell raises,
which is the per-hole failure channel of the `try/except` loop. -/

/-- A table cell: a parsed number or a text value that `float()` rejects. -/
inductive Val
  | num (q : ℚ)
  | txt (s : String)
deriving DecidableEq

/-- `float(cell)`: succeeds on numeric cells, raises on text. -/
def Val.toRatE : Val → Except Unit ℚ
  | .num q => .ok q
  | .txt _ => .error ()

/-- One collar row: hole id and easting/northing/RL cells. -/
structure CollarRow where
  hole : String
  east : Val
  north : Val
  rl : Val
deriving DecidableEq

/-- One survey row: hole id and depth/dip/azimuth cells. -/
structure SurveyRow where
  hole : String
  depth : Val
  dip : Val
  azi : Val
deriving DecidableEq

/-- One assay row: hole id, from/to cells, and all remaining columns of the
row collapsed into `rest`. -/
structure AssayRow where
  hole : String
  fr : Val
  td : Val
  rest : String
deriving DecidableEq

/-- A parsed survey station (all angles in degrees, dip negative = down). -/
structure Station where
  depth : ℚ
  dip : ℚ
  azi : ℚ
deriving DecidableEq

/-- An output row of desurvey: the original assay row plus the interpolated
X/Y/Z and the constant collar columns. -/
structure OutRow where
  row : AssayRow
  x : ℚ
  y : ℚ
  z : ℚ
  cE : ℚ
  cN : ℚ
  cRL : ℚ
deriving DecidableEq

/-- `surveys[depth|dip|azi].values.astype(float)`: parse every survey row,
raising if any cell is non-numeric. -/
def convSurveys : List SurveyRow → Except Unit (List Station)
  | [] => .ok []
  | r :: rs => do
      let d ← r.depth.toRatE
      let p ← r.dip.toRatE
      let a ← r.azi.toRatE
      let rest ← convSurveys rs
      .ok (⟨d, p, a⟩ :: rest)

/-- Parse the from/to cells of every assay row, raising on non-numeric. -/
def convAssays : List AssayRow → Except Unit (List (AssayRow × ℚ × ℚ))
  | [] => .ok []
  | r :: rs => do
      let f ← r.fr.toRatE
      let t ← r.td.toRatE
      let rest ← convAssays rs
      .ok ((r, f, t) :: rest)

/-- Depth-0 station synthesis (drillhole_manager.py lines 144–152): if the
shallowest station has positive depth, prepend a depth-0 station carrying
its dip and azimuth. -/
def ensureZero : List Station → List Station
  | [] => []
  | s :: rest => if 0 < s.depth then ⟨0, s.dip, s.azi⟩ :: s :: rest else s :: rest

/-- Per-segment east increments `dx = seg·cos(avg_dip)·sin(avg_azi)` of the
balanced tangential method, over adjacent station pairs. -/
def dxs (sinD cosD : ℚ → ℚ) (sts : List Station) : List ℚ :=
  List.zipWith
    (fun a b => (b.depth - a.depth) * cosD ((a.dip + b.dip) / 2) * sinD ((a.azi + b.azi) / 2))
    sts sts.tail

/-- Per-segment north increments `dy = seg·cos(avg_dip)·cos(avg_azi)`. -/
def dys (sinD cosD : ℚ → ℚ) (sts : List Station) : List ℚ :=
  List.zipWith
    (fun a b => (b.depth - a.depth) * cosD ((a.dip + b.dip) / 2) * cosD ((a.azi + b.azi) / 2))
    sts sts.tail

/-- Per-segment vertical increments `dz = seg·sin(avg_dip)`. -/
def dzs (sinD : ℚ → ℚ) (sts : List Station) : List ℚ :=
  List.zipWith (fun a b => (b.depth - a.depth) * sinD ((a.dip + b.dip) / 2)) sts sts.tail

/-- The trajectory's depth axis (`depths` in the source). -/
def trajDepths (sts : List Station) : List ℚ := sts.map (fun s => s.depth)

/-- One output row: the original assay row, its midpoint `(from+to)/2`
interpolated against the trajectory's depth axis on each coordinate, and
the constant collar columns (drillhole_manager.py lines 194–204). -/
def mkOutRow (sinD cosD : ℚ → ℚ) (x0 y0 z0 : ℚ) (sts : List Station)
    (p : AssayRow × ℚ × ℚ) : OutRow :=
  { row := p.1
    x := interp ((p.2.1 + p.2.2) / 2) ((trajDepths sts).zip (coordAxis x0 (dxs sinD cosD sts)))
    y := interp ((p.2.1 + p.2.2) / 2) ((trajDepths sts).zip (coordAxis y0 (dys sinD cosD sts)))
    z := interp ((p.2.1 + p.2.2) / 2) ((trajDepths sts).zip (coordAxis z0 (dzs sinD sts)))
    cE := x0, cN := y0, cRL := z0 }

/-- The numeric per-hole pipeline after parsing: sort stations by depth and
assays by from, synthesize the depth-0 station, and produce one output row
per assay row. -/
def desurveyHole (sinD cosD : ℚ → ℚ) (x0 y0 z0 : ℚ) (sts0 : List Station)
    (asr0 : List (AssayRow × ℚ × ℚ)) : List OutRow :=
  (sortBy (fun p q => decide (p.2.1 ≤ q.2.1)) asr0).map
    (mkOutRow sinD cosD x0 y0 z0
      (ensureZero (sortBy (fun a b => decide (a.depth ≤ b.depth)) sts0)))

/-- The body of the per-hole `try` block of `DrillholeManager.desurvey`
(lines 139–206): parse collar and tables, then run the numeric pipeline.
Any `float()` failure aborts the hole with `.error ()`. -/
def processHole (sinD cosD : ℚ → ℚ) (c : CollarRow) (svs : List SurveyRow)
    (ass : List AssayRow) : Except Unit (List OutRow) := do
  let x0 ← c.east.toRatE
  let y0 ← c.north.toRatE
  let z0 ← c.rl.toRatE
  let sts0 ← convSurveys svs
  let asr0 ← convAssays ass
  .ok (desurveyHole sinD cosD x0 y0 z0 sts0 asr0)

/-- One iteration of the `for hole_id in collar_indexed.index` loop of
`DrillholeManager.desurvey`: skip holes missing from the survey or assay
groups, and turn a per-hole exception into a skip (`except: continue`,
lines 207–210). -/
def holeBody (sinD cosD : ℚ → ℚ) (S : List SurveyRow) (A : List AssayRow)
    (c : CollarRow) : List OutRow :=
  let svs := S.filter (fun r => decide (r.hole = c.hole))
  let ass := A.filter (fun r => decide (r.hole = c.hole))
  if svs.isEmpty || ass.isEmpty then []
  else
    match processHole sinD cosD c svs ass with
    | .ok rows => rows
    | .error _ => []

/-- `DrillholeManager.desurvey`: the concatenated per-hole results.  When no
hole produces output this is the empty list — the function itself returns
an empty DataFrame (lines 212–213) and raises nothing. -/
def desurvey (sinD cosD : ℚ → ℚ) (C : List CollarRow) (S : List SurveyRow)
    (A : List AssayRow) : List OutRow :=
  (C.map (holeBody sinD cosD S A)).flatten

/-- `DrillholeManagerOptimized._process_single_hole_vectorized` together with
`_calculate_coordinates_numpy`: the same per-hole computation as the
standard manager. -/
def processHoleOpt (sinD cosD : ℚ → ℚ) (c : CollarRow) (svs : List SurveyRow)
    (ass : List AssayRow) : Except Unit (List OutRow) := do
  let x0 ← c.east.toRatE
  let y0 ← c.north.toRatE
  let z0 ← c.rl.toRatE
  let sts0 ← convSurveys svs
  let asr0 ← convAssays ass
  .ok (desurveyHole sinD cosD x0 y0 z0 sts0 asr0)

/-- One iteration of `_sequential_desurvey_optimized`'s hole loop
(lines 214–246), with its own silent `except: continue`. -/
def holeBodyOpt (sinD cosD : ℚ → ℚ) (S : List SurveyRow) (A : List AssayRow)
    (c : CollarRow) : List OutRow :=
  let svs := S.filter (fun r => decide (r.hole = c.hole))
  let ass := A.filter (fun r => decide (r.hole = c.hole))
  if svs.isEmpty || ass.isEmpty then []
  else
    match processHoleOpt sinD cosD c svs ass with
    | .ok rows => rows
    | .error _ => []

/-- `DrillholeManagerOptimized.desurvey` (sequential path): iterate over
`collar_df[hole_col].unique()`, look each hole's collar up in the index,
concatenate the per-hole results, and run `_optimize_output`'s final
`drop_duplicates` pass (lines 419–429). -/
def desurveyOpt (sinD cosD : ℚ → ℚ) (C : List CollarRow) (S : List SurveyRow)
    (A : List AssayRow) : List OutRow :=
  dropDuplicates
    (((dropDuplicates (C.map (fun c => c.hole))).map (fun h =>
      match C.find? (fun c => decide (c.hole = h)) with
      | some c => holeBodyOpt sinD cosD S A c
      | none => [])).flatten)

/-- The empty-result check of the upload endpoint
(`src/backend/app/api/data.py` lines 249–251): an empty desurvey result is
surfaced to the caller as an HTTP 400 error. -/
def uploadDesurvey (sinD cosD : ℚ → ℚ) (C : List CollarRow) (S : List SurveyRow)
    (A : List AssayRow) : Except String (List OutRow) :=
  let r := desurvey sinD cosD C S A
  if r.isEmpty then .error "Desurvey failed: No matching holes found" else .ok r

/-! ## Interval matcher (interval_matcher.py) -/

/-- One assay interval row seen by the matcher (columns already numeric). -/
structure AssayIv where
  hole : String
  fr : ℚ
  td : ℚ
deriving DecidableEq

/-- One logging interval row with its categorical label. -/
structure LogIv where
  hole : String
  fr : ℚ
  td : ℚ
  cat : String
deriving DecidableEq

/-- Default logging row used for out-of-range `getD` reads. -/
def dLog : LogIv := ⟨"", 0, 0, ""⟩

/-- `a_lengths = np.where(a_lengths <= 0, 1e-10, a_lengths)`
(interval_matcher.py lines 220–221): the assay length with the tiny
positive substitute for malformed intervals. -/
def aLen (f t : ℚ) : ℚ :=
  if t - f ≤ 0 then 1 / 10 ^ 10 else t - f

/-- One entry of the overlap-percentage matrix of `_match_hole_vectorized`
(lines 344–347): `max(0, min(a_to, l_to) − max(a_from, l_from))` divided by
the (guarded) assay length, times 100. -/
def overlapPct (f t lf lt : ℚ) : ℚ :=
  max 0 (min t lt - max f lf) / aLen f t * 100

/-- One row of the overlap-percentage matrix: the percentages of one assay
interval against every logging interval of the hole. -/
def rowPcts (f t : ℚ) (ls : List LogIv) : List ℚ :=
  ls.map (fun l => overlapPct f t l.fr l.td)

/-- The `n_assay × n_log` overlap-percentage matrix of one hole. -/
def overlapPctMatrix (ivs : List (ℚ × ℚ)) (ls : List LogIv) : List (List ℚ) :=
  ivs.map (fun p => rowPcts p.1 p.2 ls)

/-- The three merge strategies of `match_intervals`. -/
inductive Strategy
  | maxOverlap
  | splitColumns
  | combineCodes
deriving DecidableEq

/-- The per-assay-row outcome: the recorded best overlap percentage
(`overlap_pcts[global_idx]`, 0 when the row stays unmatched), the single
assigned value (`max_overlap` category / `combine_codes` joined string,
`None` when unmatched), and the categories whose boolean column is set to
"Yes" under `split_columns`. -/
structure RowResult where
  pct : ℚ
  single : Option String
  yes : List String
deriving DecidableEq

/-- The untouched outcome of an unmatched row. -/
def noMatch : RowResult := ⟨0, none, []⟩

/-- `max_overlap` branch of `_match_hole_vectorized` (lines 352–357):
`np.argmax` picks the first best logging interval; assign only when its
percentage strictly exceeds `min_overlap_pct`. -/
def matchRowMax (minPct f t : ℚ) (ls : List LogIv) : RowResult :=
  let ps := rowPcts f t ls
  let j := argmaxFirst ps
  if minPct < ps.getD j 0 then ⟨ps.getD j 0, some ((ls.getD j dLog).cat), []⟩
  else noMatch

/-- `split_columns` branch (lines 359–367): every logging interval above the
threshold sets its category's boolean column; the recorded percentage is
the maximum over the matching intervals. -/
def matchRowSplit (minPct f t : ℚ) (ls : List LogIv) : RowResult :=
  let ps := rowPcts f t ls
  let idx := (List.range ls.length).filter (fun j => decide (minPct < ps.getD j 0))
  if idx.isEmpty then noMatch
  else
    ⟨listMax (idx.map (fun j => ps.getD j 0)), none,
      idx.map (fun j => ((ls.getD j dLog).cat).replace " " "")⟩

/-- `combine_codes` branch (lines 369–374): the sorted, de-duplicated
matching categories joined with `" | "`. -/
def matchRowCombine (minPct f t : ℚ) (ls : List LogIv) : RowResult :=
  let ps := rowPcts f t ls
  let idx := (List.range ls.length).filter (fun j => decide (minPct < ps.getD j 0))
  if idx.isEmpty then noMatch
  else
    ⟨listMax (idx.map (fun j => ps.getD j 0)),
      some (String.intercalate " | " (sortDedup (idx.map (fun j => (ls.getD j dLog).cat)))),
      []⟩

/-- Strategy dispatch for one assay row of a hole. -/
def matchRow : Strategy → ℚ → ℚ → ℚ → List LogIv → RowResult
  | .maxOverlap, m, f, t, ls => matchRowMax m f t ls
  | .splitColumns, m, f, t, ls => matchRowSplit m f t ls
  | .combineCodes, m, f, t, ls => matchRowCombine m f t ls

/-- `_match_hole_vectorized`: per-row results for one hole's assay
intervals (each loop iteration writes only its own row's cells). -/
def matchHoleVec (st : Strategy) (minPct : ℚ) (ivs : List (ℚ × ℚ))
    (ls : List LogIv) : List RowResult :=
  ivs.map (fun p => matchRow st minPct p.1 p.2 ls)

/-- `IntervalMatcher.CHUNK_THRESHOLD = 10_000_000`. -/
def chunkThreshold : ℕ := 10000000

/-- `chunk_size = max(1, CHUNK_THRESHOLD // len(l_from))`. -/
def chunkSizeFor (nl : ℕ) : ℕ := max 1 (chunkThreshold / nl)

/-- `_match_hole_chunked` (lines 376–401): process the assay rows in
sub-chunks, each through `_match_hole_vectorized`. -/
def matchHoleChunked (st : Strategy) (minPct : ℚ) (ivs : List (ℚ × ℚ))
    (ls : List LogIv) : List RowResult :=
  ((chunksOf (chunkSizeFor ls.length) ivs).map
    (fun c => matchHoleVec st minPct c ls)).flatten

/-- The per-hole dispatch of `match_intervals` (lines 249–262): chunk when
`n_assay * n_log` exceeds the threshold. -/
def matchHole (st : Strategy) (minPct : ℚ) (ivs : List (ℚ × ℚ))
    (ls : List LogIv) : List RowResult :=
  if ivs.length * ls.length > chunkThreshold then matchHoleChunked st minPct ivs ls
  else matchHoleVec st minPct ivs ls

/-- Row-level model of `match_intervals`: each assay row's outcome is
computed from that row and its hole's logging intervals; rows of holes with
no logging data keep the initialized `noMatch` values.  (The source groups
rows by hole and scatters the per-hole results back to the original
indices; since `_match_hole_vectorized` writes each row independently this
collapses to a per-row map.) -/
def matchIntervals (st : Strategy) (minPct : ℚ) (assays : List AssayIv)
    (logs : List LogIv) : List RowResult :=
  assays.map (fun a =>
    let ls := logs.filter (fun l => decide (l.hole = a.hole))
    if ls.isEmpty then noMatch else matchRow st minPct a.fr a.td ls)

/-! ## Helper lemmas -/

theorem overlapPct_true_len (f t lf lt : ℚ) :
    overlapPct f t lf lt = max 0 (min t lt - max f lf) / (t - f) * 100 := by
  unfold overlapPct aLen
  by_cases h : t - f ≤ 0
  · rw [if_pos h]
    have h1 : min t lt - max f lf ≤ 0 := by
      have h2 : min t lt ≤ t := min_le_left _ _
      have h3 : f ≤ max f lf := le_max_left _ _
      linarith
    rw [max_eq_left h1]
    simp
  · rw [if_neg h]

theorem aLen_pos (f t : ℚ) : 0 < aLen f t := by
  unfold aLen
  by_cases h : t - f ≤ 0
  · rw [if_pos h]; norm_num
  · rw [if_neg h]; linarith

theorem overlapPct_nonneg (f t lf lt : ℚ) : 0 ≤ overlapPct f t lf lt := by
  unfold overlapPct
  have h1 : (0:ℚ) ≤ max 0 (min t lt - max f lf) := le_max_left _ _
  have h2 := aLen_pos f t
  positivity

theorem overlapPct_le_100 (f t lf lt : ℚ) : overlapPct f t lf lt ≤ 100 := by
  unfold overlapPct
  have hpos := aLen_pos f t
  have hkey : max 0 (min t lt - max f lf) ≤ aLen f t := by
    unfold aLen
    by_cases h : t - f ≤ 0
    · rw [if_pos h, max_eq_left (by nlinarith [min_le_left t lt, le_max_left f lf])]
      norm_num
    · rw [if_neg h]
      apply max_le (by linarith)
      nlinarith [min_le_left t lt, le_max_left f lf]
  have hdiv : max 0 (min t lt - max f lf) / aLen f t ≤ 1 := (div_le_one hpos).mpr hkey
  calc max 0 (min t lt - max f lf) / aLen f t * 100 ≤ 1 * 100 := by
        apply mul_le_mul_of_nonneg_right hdiv (by norm_num)
    _ = 100 := by norm_num

theorem rowPcts_getD_bounds (f t : ℚ) (ls : List LogIv) (k : ℕ) :
    0 ≤ (rowPcts f t ls).getD k 0 ∧ (rowPcts f t ls).getD k 0 ≤ 100 := by
  by_cases h : k < (rowPcts f t ls).length
  · rw [List.getD_eq_getElem _ _ h]
    unfold rowPcts at h ⊢
    rw [List.getElem_map]
    exact ⟨overlapPct_nonneg _ _ _ _, overlapPct_le_100 _ _ _ _⟩
  · rw [List.getD_eq_default _ _ (by omega)]
    norm_num

theorem foldl_max_bounds (lo hi : ℚ) :
    ∀ (xs : List ℚ) (x : ℚ), lo ≤ x → x ≤ hi → (∀ y ∈ xs, lo ≤ y ∧ y ≤ hi) →
      lo ≤ xs.foldl max x ∧ xs.foldl max x ≤ hi := by
  intro xs
  induction xs with
  | nil => intro x h1 h2 _; exact ⟨h1, h2⟩
  | cons y ys ih =>
      intro x h1 h2 hmem
      have hy := hmem y (by simp)
      refine ih (max x y) (le_trans h1 (le_max_left _ _)) (max_le h2 hy.2) ?_
      intro z hz
      exact hmem z (by simp [hz])

theorem listMax_bounds (lo hi : ℚ) (l : List ℚ) (hne : l ≠ [])
    (h : ∀ x ∈ l, lo ≤ x ∧ x ≤ hi) : lo ≤ listMax l ∧ listMax l ≤ hi := by
  cases l with
  | nil => exact absurd rfl hne
  | cons x xs =>
      have hx := h x (by simp)
      exact foldl_max_bounds lo hi xs x hx.1 hx.2 (fun y hy => h y (by simp [hy]))

theorem matchRow_pct_bounds (st : Strategy) (minPct f t : ℚ) (ls : List LogIv) :
    0 ≤ (matchRow st minPct f t ls).pct ∧ (matchRow st minPct f t ls).pct ≤ 100 := by
  cases st with
  | maxOverlap =>
      unfold matchRow matchRowMax
      by_cases h : minPct < (rowPcts f t ls).getD (argmaxFirst (rowPcts f t ls)) 0
      · simp only [if_pos h]
        exact rowPcts_getD_bounds f t ls _
      · simp only [if_neg h]
        unfold noMatch
        norm_num
  | splitColumns =>
      unfold matchRow matchRowSplit
      by_cases h : ((List.range ls.length).filter
          (fun j => decide (minPct < (rowPcts f t ls).getD j 0))).isEmpty
      · simp only [if_pos h]; unfold noMatch; norm_num
      · simp only [if_neg h]
        apply listMax_bounds
        · simp only [ne_eq, List.map_eq_nil_iff]
          intro hcon
          rw [hcon] at h
          simp at h
        · intro x hx
          rw [List.mem_map] at hx
          obtain ⟨j, _, rfl⟩ := hx
          exact rowPcts_getD_bounds f t ls j
  | combineCodes =>
      unfold matchRow matchRowCombine
      by_cases h : ((List.range ls.length).filter
          (fun j => decide (minPct < (rowPcts f t ls).getD j 0))).isEmpty
      · simp only [if_pos h]; unfold noMatch; norm_num
      · simp only [if_neg h]
        apply listMax_bounds
        · simp only [ne_eq, List.map_eq_nil_iff]
          intro hcon
          rw [hcon] at h
          simp at h
        · intro x hx
          rw [List.mem_map] at hx
          obtain ⟨j, _, rfl⟩ := hx
          exact rowPcts_getD_bounds f t ls j

theorem chunksOf_flatten (n : ℕ) (l : List α) : (chunksOf n l).flatten = l := by
  have H : ∀ (m : ℕ) (l : List α), l.length ≤ m → (chunksOf n l).flatten = l := by
    intro m
    induction m with
    | zero =>
        intro l hl
        have : l = [] := List.eq_nil_of_length_eq_zero (Nat.le_zero.mp hl)
        simp [this, chunksOf]
    | succ m ih =>
        intro l hl
        cases l with
        | nil => simp [chunksOf]
        | cons x xs =>
            rw [chunksOf]
            rw [List.flatten_cons, ih (xs.drop (n - 1)) (by simp at hl ⊢; omega)]
            simp [List.take_append_drop]
  exact H l.length l le_rfl

theorem coordAxis_cons (s d : ℚ) (ds : List ℚ) :
    coordAxis s (d :: ds) = s :: coordAxis (s + d) ds := by
  simp [coordAxis, cumsum, List.map_map, Function.comp_def, add_assoc]

theorem coordAxis_getD (ds : List ℚ) :
    ∀ (s : ℚ) (i : ℕ), i ≤ ds.length → (coordAxis s ds).getD i 0 = s + (ds.take i).sum := by
  induction ds with
  | nil =>
      intro s i hi
      have : i = 0 := Nat.le_zero.mp hi
      simp [this, coordAxis, cumsum]
  | cons d ds ih =>
      intro s i hi
      cases i with
      | zero => simp [coordAxis]
      | succ i =>
          rw [coordAxis_cons]
          rw [List.getD_cons_succ, ih (s + d) i (by simpa using hi)]
          simp [List.sum_cons]
          ring

theorem zipWith_tail_getD {β : Type} (f : Station → Station → β) (d0 : β) :
    ∀ (l : List Station) (k : ℕ), k + 1 < l.length →
      (List.zipWith f l l.tail).getD k d0 = f (l.getD k ⟨0,0,0⟩) (l.getD (k+1) ⟨0,0,0⟩) := by
  intro l
  induction l with
  | nil => intro k hk; simp at hk
  | cons a tl ih =>
      intro k hk
      cases tl with
      | nil => simp at hk
      | cons b tl' =>
          cases k with
          | zero => simp [List.zipWith]
          | succ k' =>
              have h2 : k' + 1 < (b :: tl').length := by simpa using hk
              calc (List.zipWith f (a :: b :: tl') (a :: b :: tl').tail).getD (k' + 1) d0
                  = (List.zipWith f (b :: tl') tl').getD k' d0 := by
                    simp [List.zipWith]
                _ = f ((b :: tl').getD k' ⟨0,0,0⟩) ((b :: tl').getD (k'+1) ⟨0,0,0⟩) := by
                    have := ih k' h2
                    simpa using this
                _ = f ((a :: b :: tl').getD (k'+1) ⟨0,0,0⟩) ((a :: b :: tl').getD (k'+2) ⟨0,0,0⟩) := by
                    simp

theorem dxs_length (sinD cosD : ℚ → ℚ) (sts : List Station) :
    (dxs sinD cosD sts).length = sts.length - 1 := by
  unfold dxs
  cases sts <;> simp

theorem dys_length (sinD cosD : ℚ → ℚ) (sts : List Station) :
    (dys sinD cosD sts).length = sts.length - 1 := by
  unfold dys
  cases sts <;> simp

theorem dzs_length (sinD : ℚ → ℚ) (sts : List Station) :
    (dzs sinD sts).length = sts.length - 1 := by
  unfold dzs
  cases sts <;> simp

/-! ## Claim theorems -/

/-- C1: for every hole with at least two survey stations sorted by depth,
the trajectory computed by desurvey's balanced tangential integration
(`_calculate_coordinates_numpy`, and the inline copy in
`DrillholeManager.desurvey` lines 154–192) satisfies: station `i`'s
coordinates equal the collar origin plus the cumulative sum of the
increments of segments `1..i`, where the increment of segment `k→k+1` is
`seg·cos(avg_dip)·sin(avg_azi)`, `seg·cos(avg_dip)·cos(avg_azi)`,
`seg·sin(avg_dip)` with the averaged angles of the two bounding stations. -/
theorem desurvey_balanced_tangential (sinD cosD : ℚ → ℚ) (x0 y0 z0 : ℚ)
    (sts : List Station) (hlen : 2 ≤ sts.length)
    (hsorted : sts.Sorted (fun a b => a.depth ≤ b.depth)) :
    (∀ i, i < sts.length →
      (coordAxis x0 (dxs sinD cosD sts)).getD i 0 = x0 + ((dxs sinD cosD sts).take i).sum ∧
      (coordAxis y0 (dys sinD cosD sts)).getD i 0 = y0 + ((dys sinD cosD sts).take i).sum ∧
      (coordAxis z0 (dzs sinD sts)).getD i 0 = z0 + ((dzs sinD sts).take i).sum) ∧
    (∀ k, k + 1 < sts.length →
      (dxs sinD cosD sts).getD k 0 =
        ((sts.getD (k+1) ⟨0,0,0⟩).depth - (sts.getD k ⟨0,0,0⟩).depth) *
          cosD (((sts.getD k ⟨0,0,0⟩).dip + (sts.getD (k+1) ⟨0,0,0⟩).dip) / 2) *
          sinD (((sts.getD k ⟨0,0,0⟩).azi + (sts.getD (k+1) ⟨0,0,0⟩).azi) / 2) ∧
      (dys sinD cosD sts).getD k 0 =
        ((sts.getD (k+1) ⟨0,0,0⟩).depth - (sts.getD k ⟨0,0,0⟩).depth) *
          cosD (((sts.getD k ⟨0,0,0⟩).dip + (sts.getD (k+1) ⟨0,0,0⟩).dip) / 2) *
          cosD (((sts.getD k ⟨0,0,0⟩).azi + (sts.getD (k+1) ⟨0,0,0⟩).azi) / 2) ∧
      (dzs sinD sts).getD k 0 =
        ((sts.getD (k+1) ⟨0,0,0⟩).depth - (sts.getD k ⟨0,0,0⟩).depth) *
          sinD (((sts.getD k ⟨0,0,0⟩).dip + (sts.getD (k+1) ⟨0,0,0⟩).dip) / 2)) := by
  constructor
  · intro i hi
    refine ⟨?_, ?_, ?_⟩
    · exact coordAxis_getD _ x0 i (by rw [dxs_length]; omega)
    · exact coordAxis_getD _ y0 i (by rw [dys_length]; omega)
    · exact coordAxis_getD _ z0 i (by rw [dzs_length]; omega)
  · intro k hk
    refine ⟨?_, ?_, ?_⟩
    · exact zipWith_tail_getD _ 0 sts k hk
    · exact zipWith_tail_getD _ 0 sts k hk
    · exact zipWith_tail_getD _ 0 sts k hk

/-- Witness for C1 at a two-station hole (depth 0→100, dip −60, azi 90),
with the abstract trig maps instantiated at `id`, read at station `i = 1`
and segment `k = 0`. -/
theorem desurvey_balanced_tangential_witness :
    2 ≤ ([⟨0, -60, 90⟩, ⟨100, -60, 90⟩] : List Station).length ∧
    ([⟨0, -60, 90⟩, ⟨100, -60, 90⟩] : List Station).Sorted (fun a b => a.depth ≤ b.depth) ∧
    ((coordAxis 0 (dxs id id [⟨0, -60, 90⟩, ⟨100, -60, 90⟩])).getD 1 0 =
        0 + ((dxs id id [⟨0, -60, 90⟩, ⟨100, -60, 90⟩]).take 1).sum ∧
      (coordAxis 0 (dys id id [⟨0, -60, 90⟩, ⟨100, -60, 90⟩])).getD 1 0 =
        0 + ((dys id id [⟨0, -60, 90⟩, ⟨100, -60, 90⟩]).take 1).sum ∧
      (coordAxis 0 (dzs id [⟨0, -60, 90⟩, ⟨100, -60, 90⟩])).getD 1 0 =
        0 + ((dzs id [⟨0, -60, 90⟩, ⟨100, -60, 90⟩]).take 1).sum) ∧
    ((dxs id id [⟨0, -60, 90⟩, ⟨100, -60, 90⟩]).getD 0 0 =
        ((100:ℚ) - 0) * id (((-60:ℚ) + -60) / 2) * id (((90:ℚ) + 90) / 2) ∧
      (dys id id [⟨0, -60, 90⟩, ⟨100, -60, 90⟩]).getD 0 0 =
        ((100:ℚ) - 0) * id (((-60:ℚ) + -60) / 2) * id (((90:ℚ) + 90) / 2) ∧
      (dzs id [⟨0, -60, 90⟩, ⟨100, -60, 90⟩]).getD 0 0 =
        ((100:ℚ) - 0) * id (((-60:ℚ) + -60) / 2)) := by
  have h2 : 2 ≤ ([⟨0, -60, 90⟩, ⟨100, -60, 90⟩] : List Station).length := by decide
  have hs : ([⟨0, -60, 90⟩, ⟨100, -60, 90⟩] : List Station).Sorted
      (fun a b => a.depth ≤ b.depth) := by decide
  have H := desurvey_balanced_tangential id id 0 0 0 [⟨0, -60, 90⟩, ⟨100, -60, 90⟩] h2 hs
  refine ⟨h2, hs, H.1 1 (by decide), ?_⟩
  have := H.2 0 (by decide)
  simpa using this

/-- C2: the per-hole overlap matrix of `match_intervals`
(`_match_hole_vectorized` lines 344–347) has entries
`max(0, min(a_to, l_to) − max(a_from, l_from)) / (a_to − a_from) × 100`
for every assay row `i` and logging row `j` of the hole (the `1e-10`
divisor substitution only affects rows with non-positive length, whose
overlap is 0, so the stated formula holds for every row). -/
theorem overlap_matrix_entry (ivs : List (ℚ × ℚ)) (ls : List LogIv) (i j : ℕ)
    (hi : i < ivs.length) (hj : j < ls.length) :
    ((overlapPctMatrix ivs ls).getD i []).getD j 0 =
      max 0 (min (ivs.getD i (0,0)).2 (ls.getD j dLog).td -
          max (ivs.getD i (0,0)).1 (ls.getD j dLog).fr) /
        ((ivs.getD i (0,0)).2 - (ivs.getD i (0,0)).1) * 100 := by
  have h1 : (overlapPctMatrix ivs ls).getD i [] =
      rowPcts (ivs.getD i (0,0)).1 (ivs.getD i (0,0)).2 ls := by
    unfold overlapPctMatrix
    rw [List.getD_eq_getElem _ _ (by simpa using hi), List.getElem_map,
      List.getD_eq_getElem _ _ hi]
  rw [h1]
  unfold rowPcts
  rw [List.getD_eq_getElem _ _ (by simpa using hj), List.getElem_map,
    List.getD_eq_getElem _ _ hj]
  exact overlapPct_true_len _ _ _ _

/-- Witness for C2: one assay interval (10,20) against one logging interval
(15,25): entry (0,0) of the matrix is 50. -/
theorem overlap_matrix_entry_witness :
    0 < ([((10:ℚ), (20:ℚ))]).length ∧ 0 < ([⟨"H", 15, 25, "Shale"⟩] : List LogIv).length ∧
    ((overlapPctMatrix [((10:ℚ), (20:ℚ))] [⟨"H", 15, 25, "Shale"⟩]).getD 0 []).getD 0 0 =
      max 0 (min (20:ℚ) 25 - max 10 15) / ((20:ℚ) - 10) * 100 := by
  refine ⟨by decide, by decide, ?_⟩
  have H := overlap_matrix_entry [((10:ℚ), (20:ℚ))] [⟨"H", 15, 25, "Shale"⟩] 0 0
    (by decide) (by decide)
  simpa [dLog] using H

/-- C6: when `n_assay × n_log` exceeds the fixed chunking threshold,
`_match_hole_chunked` produces exactly the per-row results of
`_match_hole_vectorized` on the full input, for every strategy and every
`min_overlap_pct` (and the per-hole dispatch therefore agrees with the
unchunked computation). -/
theorem chunked_matches_vectorized (st : Strategy) (minPct : ℚ)
    (ivs : List (ℚ × ℚ)) (ls : List LogIv)
    (h : ivs.length * ls.length > chunkThreshold) :
    matchHoleChunked st minPct ivs ls = matchHoleVec st minPct ivs ls ∧
    matchHole st minPct ivs ls = matchHoleVec st minPct ivs ls := by
  have key : matchHoleChunked st minPct ivs ls = matchHoleVec st minPct ivs ls := by
    unfold matchHoleChunked matchHoleVec
    conv_rhs => rw [← chunksOf_flatten (chunkSizeFor ls.length) ivs]
    rw [List.map_flatten]
  exact ⟨key, by unfold matchHole; rw [if_pos h]; exact key⟩

/-- Witness for C6: 10,000,001 assay rows against one logging row exceed
the 10,000,000 threshold. -/
theorem chunked_matches_vectorized_witness :
    (List.replicate 10000001 ((0:ℚ), (1:ℚ))).length *
        ([⟨"H", 0, 1, "A"⟩] : List LogIv).length > chunkThreshold ∧
    (matchHoleChunked .maxOverlap 0 (List.replicate 10000001 ((0:ℚ), (1:ℚ)))
        [⟨"H", 0, 1, "A"⟩] =
      matchHoleVec .maxOverlap 0 (List.replicate 10000001 ((0:ℚ), (1:ℚ)))
        [⟨"H", 0, 1, "A"⟩] ∧
     matchHole .maxOverlap 0 (List.replicate 10000001 ((0:ℚ), (1:ℚ)))
        [⟨"H", 0, 1, "A"⟩] =
      matchHoleVec .maxOverlap 0 (List.replicate 10000001 ((0:ℚ), (1:ℚ)))
        [⟨"H", 0, 1, "A"⟩]) := by
  have h : (List.replicate 10000001 ((0:ℚ), (1:ℚ))).length *
      ([⟨"H", 0, 1, "A"⟩] : List LogIv).length > chunkThreshold := by
    rw [List.length_replicate, List.length_singleton]
    norm_num [chunkThreshold]
  exact ⟨h, chunked_matches_vectorized .maxOverlap 0 _ _ h⟩

/-- C9: every row outcome of `match_intervals` — under any strategy and any
`min_overlap_pct`, including rows with malformed intervals whose divisor is
replaced by `1e-10` — records an overlap percentage between 0 and 100. -/
theorem match_overlap_pct_in_range (st : Strategy) (minPct : ℚ)
    (A : List AssayIv) (L : List LogIv) (r : RowResult)
    (hr : r ∈ matchIntervals st minPct A L) : 0 ≤ r.pct ∧ r.pct ≤ 100 := by
  unfold matchIntervals at hr
  rw [List.mem_map] at hr
  obtain ⟨a, _, rfl⟩ := hr
  by_cases h : (L.filter (fun l => decide (l.hole = a.hole))).isEmpty
  · simp only [if_pos h]
    unfold noMatch
    norm_num
  · simp only [if_neg h]
    exact matchRow_pct_bounds st minPct a.fr a.td _

/-- Witness for C9: the matched row (10,20) against ("H",15,25,"Shale")
records 50%, which lies in [0,100]. -/
theorem match_overlap_pct_in_range_witness :
    (⟨50, some "Shale", []⟩ : RowResult) ∈
        matchIntervals .maxOverlap 0 [⟨"H", 10, 20⟩] [⟨"H", 15, 25, "Shale"⟩] ∧
    (0 ≤ (⟨50, some "Shale", []⟩ : RowResult).pct ∧
      (⟨50, some "Shale", []⟩ : RowResult).pct ≤ 100) := by
  have hmem : (⟨50, some "Shale", []⟩ : RowResult) ∈
      matchIntervals .maxOverlap 0 [⟨"H", 10, 20⟩] [⟨"H", 15, 25, "Shale"⟩] := by
    unfold matchIntervals matchRow matchRowMax rowPcts argmaxFirst
    norm_num [overlapPct, aLen, min_def, max_def]
  exact ⟨hmem, match_overlap_pct_in_range .maxOverlap 0 _ _ _ hmem⟩

theorem argmaxFirst_le : ∀ (l : List ℚ) (k : ℕ), k < l.length →
    l.getD k 0 ≤ l.getD (argmaxFirst l) 0 := by
  intro l
  induction l with
  | nil => intro k hk; simp at hk
  | cons x xs ih =>
      cases xs with
      | nil =>
          intro k hk
          have : k = 0 := by simpa using hk
          simp [this, argmaxFirst]
      | cons y ys =>
          intro k hk
          by_cases h : (y :: ys).getD (argmaxFirst (y :: ys)) 0 ≤ x
          · rw [argmaxFirst, if_pos h]
            cases k with
            | zero => simp
            | succ k' =>
                rw [List.getD_cons_succ, List.getD_cons_zero]
                exact le_trans (ih k' (by simpa using hk)) h
          · rw [argmaxFirst, if_neg h]
            rw [List.getD_cons_succ]
            cases k with
            | zero =>
                rw [List.getD_cons_zero]
                exact (not_le.mp h).le
            | succ k' =>
                rw [List.getD_cons_succ]
                exact ih k' (by simpa using hk)

theorem argmaxFirst_first : ∀ (l : List ℚ) (k : ℕ), k < l.length →
    l.getD k 0 = l.getD (argmaxFirst l) 0 → argmaxFirst l ≤ k := by
  intro l
  induction l with
  | nil => intro k hk; simp at hk
  | cons x xs ih =>
      cases xs with
      | nil => intro k _ _; simp [argmaxFirst]
      | cons y ys =>
          intro k hk heq
          by_cases h : (y :: ys).getD (argmaxFirst (y :: ys)) 0 ≤ x
          · rw [argmaxFirst, if_pos h]
            exact Nat.zero_le k
          · rw [argmaxFirst, if_neg h]
            rw [argmaxFirst, if_neg h] at heq
            rw [List.getD_cons_succ] at heq
            cases k with
            | zero =>
                rw [List.getD_cons_zero] at heq
                exact absurd heq (ne_of_lt (not_le.mp h))
            | succ k' =>
                rw [List.getD_cons_succ] at heq
                exact Nat.succ_le_succ (ih k' (by simpa using hk) heq)

/-- C3: under the `max_overlap` strategy, the matcher picks, for each assay
row, the logging interval produced by `np.argmax` over the row's overlap
percentages; it assigns that category (and records its percentage) exactly
when the percentage strictly exceeds `min_overlap_pct`, leaves the row
unassigned otherwise, the picked percentage dominates every other logging
interval's, and ties go to the lowest logging index. -/
theorem max_overlap_selection (minPct f t : ℚ) (ls : List LogIv) (hne : ls ≠ []) :
    (minPct < (rowPcts f t ls).getD (argmaxFirst (rowPcts f t ls)) 0 →
      matchRowMax minPct f t ls =
        ⟨(rowPcts f t ls).getD (argmaxFirst (rowPcts f t ls)) 0,
          some ((ls.getD (argmaxFirst (rowPcts f t ls)) dLog).cat), []⟩) ∧
    (¬ minPct < (rowPcts f t ls).getD (argmaxFirst (rowPcts f t ls)) 0 →
      matchRowMax minPct f t ls = noMatch) ∧
    (∀ k, k < ls.length →
      (rowPcts f t ls).getD k 0 ≤ (rowPcts f t ls).getD (argmaxFirst (rowPcts f t ls)) 0) ∧
    (∀ k, k < ls.length →
      (rowPcts f t ls).getD k 0 = (rowPcts f t ls).getD (argmaxFirst (rowPcts f t ls)) 0 →
      argmaxFirst (rowPcts f t ls) ≤ k) := by
  refine ⟨fun h => ?_, fun h => ?_, fun k hk => ?_, fun k hk => ?_⟩
  · unfold matchRowMax
    rw [if_pos h]
  · unfold matchRowMax
    rw [if_neg h]
  · exact argmaxFirst_le _ k (by simpa [rowPcts] using hk)
  · exact argmaxFirst_first _ k (by simpa [rowPcts] using hk)

/-- Witness for C3: assay (10,20) against logging rows ("Shale",15–25 → 50%)
and ("Coal",10–12 → 20%): the first row wins and is assigned. -/
theorem max_overlap_selection_witness :
    (([⟨"H", 15, 25, "Shale"⟩, ⟨"H", 10, 12, "Coal"⟩] : List LogIv) ≠ []) ∧
    (0 < (rowPcts 10 20 [⟨"H", 15, 25, "Shale"⟩, ⟨"H", 10, 12, "Coal"⟩]).getD
        (argmaxFirst (rowPcts 10 20 [⟨"H", 15, 25, "Shale"⟩, ⟨"H", 10, 12, "Coal"⟩])) 0 →
      matchRowMax 0 10 20 [⟨"H", 15, 25, "Shale"⟩, ⟨"H", 10, 12, "Coal"⟩] =
        ⟨(rowPcts 10 20 [⟨"H", 15, 25, "Shale"⟩, ⟨"H", 10, 12, "Coal"⟩]).getD
            (argmaxFirst (rowPcts 10 20 [⟨"H", 15, 25, "Shale"⟩, ⟨"H", 10, 12, "Coal"⟩])) 0,
          some (([⟨"H", 15, 25, "Shale"⟩, ⟨"H", 10, 12, "Coal"⟩] : List LogIv).getD
              (argmaxFirst (rowPcts 10 20 [⟨"H", 15, 25, "Shale"⟩, ⟨"H", 10, 12, "Coal"⟩]))
              dLog).cat, []⟩) ∧
    ((rowPcts 10 20 [⟨"H", 15, 25, "Shale"⟩, ⟨"H", 10, 12, "Coal"⟩]).getD 1 0 ≤
      (rowPcts 10 20 [⟨"H", 15, 25, "Shale"⟩, ⟨"H", 10, 12, "Coal"⟩]).getD
        (argmaxFirst (rowPcts 10 20 [⟨"H", 15, 25, "Shale"⟩, ⟨"H", 10, 12, "Coal"⟩])) 0) ∧
    ((rowPcts 10 20 [⟨"H", 15, 25, "Shale"⟩, ⟨"H", 10, 12, "Coal"⟩]).getD 1 0 =
      (rowPcts 10 20 [⟨"H", 15, 25, "Shale"⟩, ⟨"H", 10, 12, "Coal"⟩]).getD
        (argmaxFirst (rowPcts 10 20 [⟨"H", 15, 25, "Shale"⟩, ⟨"H", 10, 12, "Coal"⟩])) 0 →
      argmaxFirst (rowPcts 10 20 [⟨"H", 15, 25, "Shale"⟩, ⟨"H", 10, 12, "Coal"⟩]) ≤ 1) := by
  have hne : ([⟨"H", 15, 25, "Shale"⟩, ⟨"H", 10, 12, "Coal"⟩] : List LogIv) ≠ [] := by decide
  have H := max_overlap_selection 0 10 20 [⟨"H", 15, 25, "Shale"⟩, ⟨"H", 10, 12, "Coal"⟩] hne
  exact ⟨hne, H.1, H.2.2.1 1 (by decide), H.2.2.2 1 (by decide)⟩

theorem sorted_getD_lt (pts : List (ℚ × ℚ))
    (hs : pts.Sorted (fun p q => p.1 < q.1)) (i j : ℕ) (hij : i < j)
    (hj : j < pts.length) : (pts.getD i (0,0)).1 < (pts.getD j (0,0)).1 := by
  rw [List.getD_eq_getElem _ _ (lt_trans hij hj), List.getD_eq_getElem _ _ hj]
  exact List.pairwise_iff_getElem.mp hs i j (lt_trans hij hj) hj hij

theorem getLastD_irrel : ∀ (l : List (ℚ × ℚ)), l ≠ [] →
    ∀ (a b : ℚ × ℚ), l.getLastD a = l.getLastD b := by
  intro l
  cases l with
  | nil => intro h; exact absurd rfl h
  | cons x xs => intro _ a b; rw [List.getLastD_cons, List.getLastD_cons]

theorem interp_step (mid px pf qx qf : ℚ) (rest : List (ℚ × ℚ))
    (hpq : px < qx) (h : qx < mid) :
    interp mid ((px, pf) :: (qx, qf) :: rest) = interp mid ((qx, qf) :: rest) := by
  rw [interp, if_neg (by linarith), if_neg (by linarith)]

theorem interp_above (mid : ℚ) : ∀ (pts : List (ℚ × ℚ)),
    pts.Sorted (fun p q => p.1 < q.1) → (∀ p ∈ pts, p.1 ≤ mid) → pts ≠ [] →
    interp mid pts = (pts.getLastD (0,0)).2 := by
  intro pts
  induction pts with
  | nil => intro _ _ h; exact absurd rfl h
  | cons p rest ih =>
      intro hs hle _
      obtain ⟨px, pf⟩ := p
      cases rest with
      | nil => rw [interp]; rfl
      | cons q rest' =>
          obtain ⟨qx, qf⟩ := q
          have hpq : px < qx := (List.sorted_cons.mp hs).1 (qx, qf) (by simp)
          have hqm : qx ≤ mid := hle (qx, qf) (by simp)
          by_cases hq : qx < mid
          · rw [interp_step mid px pf qx qf rest' hpq hq]
            rw [ih (List.sorted_cons.mp hs).2 (fun r hr => hle r (by simp [hr]))
              (by simp)]
            rw [getLastD_irrel ((qx, qf) :: rest') (by simp) (0,0) (px, pf)]
            rw [List.getLastD_cons (0,0) (px, pf) ((qx, qf) :: rest')]
          · have hmq : mid = qx := le_antisymm (not_lt.mp hq) hqm
            cases rest' with
            | cons r rest'' =>
                exfalso
                have hr : qx < r.1 :=
                  (List.sorted_cons.mp (List.sorted_cons.mp hs).2).1 r (by simp)
                have hrle : r.1 ≤ mid := hle r (by simp)
                linarith
            | nil =>
                rw [interp, if_neg (by linarith), if_pos (by linarith)]
                have hgl : (((px, pf) :: [(qx, qf)] : List (ℚ × ℚ)).getLastD (0,0)) =
                    (qx, qf) := rfl
                rw [hgl]
                show pf + (qf - pf) * (mid - px) / (qx - px) = qf
                have hne0 : qx - px ≠ 0 := ne_of_gt (by linarith)
                rw [hmq, mul_div_assoc, div_self hne0, mul_one]
                ring

theorem interp_segment (mid : ℚ) : ∀ (pts : List (ℚ × ℚ)),
    pts.Sorted (fun p q => p.1 < q.1) →
    ∀ k, k + 1 < pts.length → (pts.getD k (0,0)).1 ≤ mid →
      mid ≤ (pts.getD (k+1) (0,0)).1 →
    interp mid pts =
      (pts.getD k (0,0)).2 +
        ((pts.getD (k+1) (0,0)).2 - (pts.getD k (0,0)).2) * (mid - (pts.getD k (0,0)).1) /
          ((pts.getD (k+1) (0,0)).1 - (pts.getD k (0,0)).1) := by
  intro pts
  induction pts with
  | nil => intro _ k hk; simp at hk
  | cons p rest ih =>
      intro hs k hk h1 h2
      obtain ⟨px, pf⟩ := p
      cases rest with
      | nil => simp at hk
      | cons q rest' =>
          obtain ⟨qx, qf⟩ := q
          have hpq : px < qx := (List.sorted_cons.mp hs).1 (qx, qf) (by simp)
          cases k with
          | zero =>
              rw [List.getD_cons_zero] at h1
              rw [List.getD_cons_succ, List.getD_cons_zero] at h2
              rw [List.getD_cons_zero, List.getD_cons_succ, List.getD_cons_zero]
              have h1' : px ≤ mid := h1
              have h2' : mid ≤ qx := h2
              by_cases hx : mid ≤ px
              · have hmx : mid = px := le_antisymm hx h1'
                rw [interp, if_pos hx]
                show pf = pf + (qf - pf) * (mid - px) / (qx - px)
                rw [hmx]
                ring
              · rw [interp, if_neg hx, if_pos h2']
          | succ k' =>
              rw [List.getD_cons_succ] at h1
              rw [List.getD_cons_succ] at h2
              rw [List.getD_cons_succ, List.getD_cons_succ]
              have hk' : k' + 1 < ((qx, qf) :: rest').length := by simpa using hk
              have hqle : qx ≤ (((qx, qf) :: rest').getD k' (0,0)).1 := by
                rcases Nat.eq_zero_or_pos k' with h0 | h0
                · subst h0; simp
                · have hlt := sorted_getD_lt ((qx, qf) :: rest')
                    (List.sorted_cons.mp hs).2 0 k' h0 (by omega)
                  rw [List.getD_cons_zero] at hlt
                  exact le_of_lt hlt
              by_cases hq : qx < mid
              · rw [interp_step mid px pf qx qf rest' hpq hq]
                exact ih (List.sorted_cons.mp hs).2 k' hk' h1 h2
              · have hmq : mid ≤ qx := not_lt.mp hq
                have hqmid : qx = mid := le_antisymm (le_trans hqle h1) hmq
                have hk0 : k' = 0 := by
                  by_contra hne0
                  have hpos : 0 < k' := Nat.pos_of_ne_zero hne0
                  have hlt := sorted_getD_lt ((qx, qf) :: rest')
                    (List.sorted_cons.mp hs).2 0 k' hpos (by omega)
                  rw [List.getD_cons_zero] at hlt
                  have hlt' : qx < (((qx, qf) :: rest').getD k' (0,0)).1 := hlt
                  have hle2 : (((qx, qf) :: rest').getD k' (0,0)).1 ≤ qx := hqmid ▸ h1
                  linarith
                subst hk0
                rw [List.getD_cons_zero, List.getD_cons_succ]
                rw [List.getD_cons_zero] at h1
                rw [interp, if_neg (by linarith), if_pos hmq]
                show pf + (qf - pf) * (mid - px) / (qx - px) =
                  qf + ((rest'.getD 0 (0,0)).2 - qf) * (mid - qx) /
                    ((rest'.getD 0 (0,0)).1 - qx)
                have hne0 : qx - px ≠ 0 := ne_of_gt (by linarith)
                rw [← hqmid, sub_self qx, mul_zero, zero_div, add_zero]
                rw [mul_div_assoc, div_self hne0, mul_one]
                ring

/-- C7: desurvey computes each assay interval's midpoint `(from+to)/2` and
feeds it to `np.interp` over the trajectory's depth axis (see `mkOutRow`);
over a strictly depth-sorted trajectory, `interp` clamps a midpoint at or
below the first depth to the first station's value, clamps a midpoint at or
above the last depth to the last station's value (no extrapolation), and is
the linear interpolant on every segment that brackets the midpoint. -/
theorem interval_midpoint_interpolation (pts : List (ℚ × ℚ)) (mid : ℚ)
    (hne : pts ≠ []) (hs : pts.Sorted (fun p q => p.1 < q.1)) :
    ((∀ p ∈ pts, mid ≤ p.1) → interp mid pts = (pts.getD 0 (0,0)).2) ∧
    ((∀ p ∈ pts, p.1 ≤ mid) → interp mid pts = (pts.getLastD (0,0)).2) ∧
    (∀ k, k + 1 < pts.length → (pts.getD k (0,0)).1 ≤ mid →
      mid ≤ (pts.getD (k+1) (0,0)).1 →
      interp mid pts =
        (pts.getD k (0,0)).2 +
          ((pts.getD (k+1) (0,0)).2 - (pts.getD k (0,0)).2) * (mid - (pts.getD k (0,0)).1) /
            ((pts.getD (k+1) (0,0)).1 - (pts.getD k (0,0)).1)) := by
  refine ⟨fun hbelow => ?_, fun habove => interp_above mid pts hs habove hne,
    interp_segment mid pts hs⟩
  cases pts with
  | nil => exact absurd rfl hne
  | cons p rest =>
      obtain ⟨px, pf⟩ := p
      have hp : mid ≤ px := hbelow (px, pf) (by simp)
      cases rest with
      | nil => rw [interp]; rfl
      | cons q rest' =>
          obtain ⟨qx, qf⟩ := q
          rw [interp, if_pos hp]
          rfl

/-- Witness for C7 on the two-station depth axis [(0,500),(100,400)]:
midpoint 50 interpolates linearly to 450, and the clamping and bracketing
hypotheses are discharged concretely. -/
theorem interval_midpoint_interpolation_witness :
    (([((0:ℚ), (500:ℚ)), (100, 400)] : List (ℚ × ℚ)) ≠ []) ∧
    ([((0:ℚ), (500:ℚ)), (100, 400)] : List (ℚ × ℚ)).Sorted (fun p q => p.1 < q.1) ∧
    (([((0:ℚ), (500:ℚ)), (100, 400)].getD 0 (0,0)).1 ≤ 50 ∧
      (50:ℚ) ≤ ([((0:ℚ), (500:ℚ)), (100, 400)].getD 1 (0,0)).1) ∧
    interp 50 [((0:ℚ), (500:ℚ)), (100, 400)] =
      ([((0:ℚ), (500:ℚ)), (100, 400)].getD 0 (0,0)).2 +
        (([((0:ℚ), (500:ℚ)), (100, 400)].getD 1 (0,0)).2 -
            ([((0:ℚ), (500:ℚ)), (100, 400)].getD 0 (0,0)).2) *
          (50 - ([((0:ℚ), (500:ℚ)), (100, 400)].getD 0 (0,0)).1) /
          (([((0:ℚ), (500:ℚ)), (100, 400)].getD 1 (0,0)).1 -
            ([((0:ℚ), (500:ℚ)), (100, 400)].getD 0 (0,0)).1) := by
  have hne : ([((0:ℚ), (500:ℚ)), (100, 400)] : List (ℚ × ℚ)) ≠ [] := by decide
  have hs : ([((0:ℚ), (500:ℚ)), (100, 400)] : List (ℚ × ℚ)).Sorted
      (fun p q => p.1 < q.1) := by decide
  have H := interval_midpoint_interpolation [((0:ℚ), (500:ℚ)), (100, 400)] 50 hne hs
  refine ⟨hne, hs, ⟨by decide, by decide⟩, ?_⟩
  exact H.2.2 0 (by decide) (by decide) (by decide)

/-- C8: for a nonempty, depth-sorted station list with nonnegative depths,
desurvey synthesizes a depth-0 station carrying the shallowest station's
dip and azimuth exactly when no station sits at depth 0, leaves the list
unchanged when one does, and in either case the integrated trajectory
starts at depth 0 at the collar origin. -/
theorem zero_depth_station_synthesis (sts : List Station) (hne : sts ≠ [])
    (hsorted : sts.Sorted (fun a b => a.depth ≤ b.depth))
    (hpos : ∀ s ∈ sts, 0 ≤ s.depth) :
    ((∀ s ∈ sts, s.depth ≠ 0) →
      ensureZero sts = ⟨0, (sts.getD 0 ⟨0,0,0⟩).dip, (sts.getD 0 ⟨0,0,0⟩).azi⟩ :: sts) ∧
    ((∃ s ∈ sts, s.depth = 0) → ensureZero sts = sts) ∧
    ((ensureZero sts).getD 0 ⟨0,0,0⟩).depth = 0 ∧
    (∀ (x0 : ℚ) (ds : List ℚ), (coordAxis x0 ds).getD 0 0 = x0) := by
  cases sts with
  | nil => exact absurd rfl hne
  | cons s rest =>
      by_cases h0 : 0 < s.depth
      · refine ⟨fun _ => ?_, fun hz => ?_, ?_, fun x0 ds => rfl⟩
        · simp [ensureZero, if_pos h0]
        · exfalso
          obtain ⟨z, hzmem, hz0⟩ := hz
          rcases List.mem_cons.mp hzmem with h | h
          · rw [← h, hz0] at h0; exact absurd h0 (by norm_num)
          · have hle := (List.sorted_cons.mp hsorted).1 z h
            rw [hz0] at hle
            linarith
        · simp [ensureZero, if_pos h0]
      · have hz : s.depth = 0 := le_antisymm (not_lt.mp h0) (hpos s (by simp))
        refine ⟨fun hno => absurd hz (hno s (by simp)), fun _ => ?_, ?_, fun x0 ds => rfl⟩
        · simp [ensureZero, if_neg h0]
        · simp [ensureZero, if_neg h0, hz]

/-- Witness for C8 at the station list [(5,−60,90),(100,−55,95)]: no station
has depth 0, so a (0,−60,90) station is prepended. -/
theorem zero_depth_station_synthesis_witness :
    ([⟨5, -60, 90⟩, ⟨100, -55, 95⟩] : List Station) ≠ [] ∧
    ([⟨5, -60, 90⟩, ⟨100, -55, 95⟩] : List Station).Sorted (fun a b => a.depth ≤ b.depth) ∧
    (∀ s ∈ ([⟨5, -60, 90⟩, ⟨100, -55, 95⟩] : List Station), 0 ≤ s.depth) ∧
    (∀ s ∈ ([⟨5, -60, 90⟩, ⟨100, -55, 95⟩] : List Station), s.depth ≠ 0) ∧
    ensureZero [⟨5, -60, 90⟩, ⟨100, -55, 95⟩] =
      ⟨0, -60, 90⟩ :: [⟨5, -60, 90⟩, ⟨100, -55, 95⟩] ∧
    ((ensureZero [⟨5, -60, 90⟩, ⟨100, -55, 95⟩]).getD 0 ⟨0,0,0⟩).depth = 0 := by
  have hne : ([⟨5, -60, 90⟩, ⟨100, -55, 95⟩] : List Station) ≠ [] := by decide
  have hs : ([⟨5, -60, 90⟩, ⟨100, -55, 95⟩] : List Station).Sorted
      (fun a b => a.depth ≤ b.depth) := by decide
  have hp : ∀ s ∈ ([⟨5, -60, 90⟩, ⟨100, -55, 95⟩] : List Station), 0 ≤ s.depth := by decide
  have hnz : ∀ s ∈ ([⟨5, -60, 90⟩, ⟨100, -55, 95⟩] : List Station), s.depth ≠ 0 := by decide
  have H := zero_depth_station_synthesis _ hne hs hp
  exact ⟨hne, hs, hp, hnz, by simpa using H.1 hnz, H.2.2.1⟩

/-- C4 counterexample: on an input whose only hole fails (non-numeric survey
depth), zero holes produce usable output, and `DrillholeManager.desurvey`
returns the empty table — it raises nothing (no `EmptyResultError` exists
anywhere in the repository; `drillhole_manager.py` lines 212–213 are
`if not results: return pd.DataFrame()`). -/
theorem desurvey_empty_returns_empty_table :
    desurvey (fun q => q) (fun q => q)
      [⟨"A", .num 0, .num 0, .num 0⟩]
      [⟨"A", .txt "bad", .num 0, .num 0⟩]
      [⟨"A", .num 0, .num 1, "v"⟩] = [] := by
  rfl

/-- C4 (amended): the desurvey manager itself returns an empty table when no
hole produces output; it is the upload API endpoint
(`src/backend/app/api/data.py` lines 249–251) that checks the empty result
and surfaces it as an HTTP 400 failure "Desurvey failed: No matching holes
found", distinct from per-hole skips. -/
theorem upload_desurvey_empty_error (sinD cosD : ℚ → ℚ) (C : List CollarRow)
    (S : List SurveyRow) (A : List AssayRow)
    (h : desurvey sinD cosD C S A = []) :
    uploadDesurvey sinD cosD C S A =
      .error "Desurvey failed: No matching holes found" := by
  unfold uploadDesurvey
  rw [h]
  rfl

/-- Witness for the amended C4 at the concrete zero-output input. -/
theorem upload_desurvey_empty_error_witness :
    desurvey (fun q => q) (fun q => q)
        [⟨"A", .num 0, .num 0, .num 0⟩]
        [⟨"A", .txt "bad", .num 0, .num 0⟩]
        [⟨"A", .num 0, .num 1, "v"⟩] = [] ∧
    uploadDesurvey (fun q => q) (fun q => q)
        [⟨"A", .num 0, .num 0, .num 0⟩]
        [⟨"A", .txt "bad", .num 0, .num 0⟩]
        [⟨"A", .num 0, .num 1, "v"⟩] =
      .error "Desurvey failed: No matching holes found" :=
  ⟨by rfl, upload_desurvey_empty_error _ _ _ _ _ (by rfl)⟩

/-- C5 counterexample: hole "A" fails (non-numeric survey depth) while hole
"B" succeeds; the complete return value of the desurvey call is exactly
hole "B"'s rows.  The skipped hole is continued past, but no warning for it
is recorded anywhere in the returned value — the function returns only a
row table (the warning goes to the log), so no warnings list is "returned
alongside the results". -/
theorem desurvey_failed_hole_unreported :
    desurvey (fun q => q) (fun q => q)
        [⟨"A", .num 0, .num 0, .num 0⟩, ⟨"B", .num 1, .num 2, .num 3⟩]
        [⟨"A", .txt "bad", .num 0, .num 0⟩, ⟨"B", .num 0, .num (-60), .num 90⟩]
        [⟨"A", .num 0, .num 1, "v"⟩, ⟨"B", .num 2, .num 4, "pay"⟩] =
      [⟨⟨"B", .num 2, .num 4, "pay"⟩, 1, 2, 3, 1, 2, 3⟩] ∧
    ∀ r ∈ desurvey (fun q => q) (fun q => q)
        [⟨"A", .num 0, .num 0, .num 0⟩, ⟨"B", .num 1, .num 2, .num 3⟩]
        [⟨"A", .txt "bad", .num 0, .num 0⟩, ⟨"B", .num 0, .num (-60), .num 90⟩]
        [⟨"A", .num 0, .num 1, "v"⟩, ⟨"B", .num 2, .num 4, "pay"⟩],
      r.row.hole ≠ "A" := by
  have key : desurvey (fun q => q) (fun q => q)
      [⟨"A", .num 0, .num 0, .num 0⟩, ⟨"B", .num 1, .num 2, .num 3⟩]
      [⟨"A", .txt "bad", .num 0, .num 0⟩, ⟨"B", .num 0, .num (-60), .num 90⟩]
      [⟨"A", .num 0, .num 1, "v"⟩, ⟨"B", .num 2, .num 4, "pay"⟩] =
      [⟨⟨"B", .num 2, .num 4, "pay"⟩, 1, 2, 3, 1, 2, 3⟩] := by
    norm_num +decide [desurvey, holeBody, processHole, desurveyHole, mkOutRow, convSurveys,
      convAssays, Val.toRatE, ensureZero, sortBy, insertAsc, trajDepths, dxs, dys, dzs,
      coordAxis, cumsum, interp, bind, Except.bind, List.filter]
  refine ⟨key, ?_⟩
  rw [key]
  intro r hr
  rw [List.mem_singleton] at hr
  subst hr
  decide

/-- C5 (amended): an exception scoped to a single hole is caught locally —
the hole is skipped and the remaining holes are processed, so the call
never aborts; but the warning is only logged, not returned: removing the
failed hole's collar row leaves the returned table unchanged, and the
return value carries no warnings component. -/
theorem desurvey_per_hole_failure_skipped (sinD cosD : ℚ → ℚ)
    (Cpre Cpost : List CollarRow) (c : CollarRow) (S : List SurveyRow)
    (A : List AssayRow)
    (h : processHole sinD cosD c (S.filter (fun r => decide (r.hole = c.hole)))
        (A.filter (fun r => decide (r.hole = c.hole))) = .error ()) :
    desurvey sinD cosD (Cpre ++ c :: Cpost) S A = desurvey sinD cosD (Cpre ++ Cpost) S A := by
  unfold desurvey
  rw [List.map_append, List.map_append, List.map_cons, List.flatten_append,
    List.flatten_append, List.flatten_cons]
  have hc : holeBody sinD cosD S A c = [] := by
    unfold holeBody
    by_cases hemp : (S.filter (fun r => decide (r.hole = c.hole))).isEmpty ||
        (A.filter (fun r => decide (r.hole = c.hole))).isEmpty
    · rw [if_pos hemp]
    · rw [if_neg hemp, h]
  rw [hc, List.nil_append]

/-- Witness for the amended C5: dropping the failing hole "A" from the
collar list leaves the desurvey output unchanged. -/
theorem desurvey_per_hole_failure_skipped_witness :
    processHole (fun q => q) (fun q => q) ⟨"A", .num 0, .num 0, .num 0⟩
        (([⟨"A", .txt "bad", .num 0, .num 0⟩, ⟨"B", .num 0, .num (-60), .num 90⟩] :
            List SurveyRow).filter (fun r => decide (r.hole = "A")))
        (([⟨"A", .num 0, .num 1, "v"⟩, ⟨"B", .num 2, .num 4, "pay"⟩] :
            List AssayRow).filter (fun r => decide (r.hole = "A"))) = .error () ∧
    desurvey (fun q => q) (fun q => q)
        ([] ++ ⟨"A", .num 0, .num 0, .num 0⟩ :: [⟨"B", .num 1, .num 2, .num 3⟩])
        [⟨"A", .txt "bad", .num 0, .num 0⟩, ⟨"B", .num 0, .num (-60), .num 90⟩]
        [⟨"A", .num 0, .num 1, "v"⟩, ⟨"B", .num 2, .num 4, "pay"⟩] =
      desurvey (fun q => q) (fun q => q)
        ([] ++ [⟨"B", .num 1, .num 2, .num 3⟩])
        [⟨"A", .txt "bad", .num 0, .num 0⟩, ⟨"B", .num 0, .num (-60), .num 90⟩]
        [⟨"A", .num 0, .num 1, "v"⟩, ⟨"B", .num 2, .num 4, "pay"⟩] :=
  ⟨by rfl, desurvey_per_hole_failure_skipped _ _ _ _ _ _ _ (by rfl)⟩

theorem exceptBind_ok {α β : Type} (x : Except Unit α) (f : α → Except Unit β) (b : β) :
    (x >>= f) = Except.ok b ↔ ∃ a, x = .ok a ∧ f a = .ok b := by
  cases x with
  | error e => simp [bind, Except.bind]
  | ok a => simp [bind, Except.bind]

theorem convAssays_length : ∀ (l : List AssayRow) (r : List (AssayRow × ℚ × ℚ)),
    convAssays l = .ok r → r.length = l.length := by
  intro l
  induction l with
  | nil =>
      intro r h
      simp [convAssays] at h
      rw [h]
      rfl
  | cons a rest ih =>
      intro r h
      unfold convAssays at h
      rw [exceptBind_ok] at h
      obtain ⟨f, _, h⟩ := h
      rw [exceptBind_ok] at h
      obtain ⟨t, _, h⟩ := h
      rw [exceptBind_ok] at h
      obtain ⟨r', hr', h⟩ := h
      simp only [Except.ok.injEq] at h
      rw [← h, List.length_cons, ih r' hr', List.length_cons]

theorem length_insertAsc (le : α → α → Bool) (x : α) :
    ∀ l : List α, (insertAsc le x l).length = l.length + 1 := by
  intro l
  induction l with
  | nil => rfl
  | cons y ys ih =>
      rw [insertAsc]
      by_cases h : le x y
      · rw [if_pos h]
        simp
      · rw [if_neg h, List.length_cons, ih, List.length_cons]

theorem length_sortBy (le : α → α → Bool) : ∀ l : List α, (sortBy le l).length = l.length := by
  intro l
  induction l with
  | nil => rfl
  | cons x xs ih => rw [sortBy, length_insertAsc, ih, List.length_cons]

theorem desurveyHole_length (sinD cosD : ℚ → ℚ) (x0 y0 z0 : ℚ) (sts0 : List Station)
    (asr0 : List (AssayRow × ℚ × ℚ)) :
    (desurveyHole sinD cosD x0 y0 z0 sts0 asr0).length = asr0.length := by
  rw [desurveyHole, List.length_map, length_sortBy]

theorem processHole_ok_length (sinD cosD : ℚ → ℚ) (c : CollarRow)
    (svs : List SurveyRow) (ass : List AssayRow) (rows : List OutRow)
    (h : processHole sinD cosD c svs ass = .ok rows) : rows.length = ass.length := by
  unfold processHole at h
  rw [exceptBind_ok] at h
  obtain ⟨x0, _, h⟩ := h
  rw [exceptBind_ok] at h
  obtain ⟨y0, _, h⟩ := h
  rw [exceptBind_ok] at h
  obtain ⟨z0, _, h⟩ := h
  rw [exceptBind_ok] at h
  obtain ⟨sts0, _, h⟩ := h
  rw [exceptBind_ok] at h
  obtain ⟨asr0, hasr, h⟩ := h
  simp only [Except.ok.injEq] at h
  rw [← h, desurveyHole_length, convAssays_length ass asr0 hasr]

theorem dropDuplicates_subset [DecidableEq α] :
    ∀ (l : List α) (a : α), a ∈ dropDuplicates l → a ∈ l := by
  have H : ∀ (n : ℕ) (l : List α), l.length ≤ n → ∀ a, a ∈ dropDuplicates l → a ∈ l := by
    intro n
    induction n with
    | zero =>
        intro l hl a ha
        rw [List.eq_nil_of_length_eq_zero (Nat.le_zero.mp hl)] at ha ⊢
        simpa [dropDuplicates] using ha
    | succ n ih =>
        intro l hl a ha
        cases l with
        | nil => simpa [dropDuplicates] using ha
        | cons x xs =>
            rw [dropDuplicates] at ha
            rcases List.mem_cons.mp ha with h | h
            · simp [h]
            · have hlen : (xs.filter (fun y => y ≠ x)).length ≤ n :=
                le_trans (List.length_filter_le _ _) (by simpa using hl)
              have hmem := ih _ hlen a h
              exact List.mem_cons_of_mem _ (List.mem_filter.mp hmem).1
  exact fun l a ha => H l.length l le_rfl a ha

theorem dropDuplicates_nodup [DecidableEq α] : ∀ l : List α, (dropDuplicates l).Nodup := by
  have H : ∀ (n : ℕ) (l : List α), l.length ≤ n → (dropDuplicates l).Nodup := by
    intro n
    induction n with
    | zero =>
        intro l hl
        rw [List.eq_nil_of_length_eq_zero (Nat.le_zero.mp hl)]
        simp [dropDuplicates]
    | succ n ih =>
        intro l hl
        cases l with
        | nil => simp [dropDuplicates]
        | cons x xs =>
            rw [dropDuplicates]
            refine List.nodup_cons.mpr ⟨?_, ih _
              (le_trans (List.length_filter_le _ _) (by simpa using hl))⟩
            intro hx
            have hmem := List.mem_filter.mp (dropDuplicates_subset _ x hx)
            simp at hmem
  exact fun l => H l.length l le_rfl

theorem dropDuplicates_eq_self [DecidableEq α] :
    ∀ l : List α, l.Nodup → dropDuplicates l = l := by
  have H : ∀ (n : ℕ) (l : List α), l.length ≤ n → l.Nodup → dropDuplicates l = l := by
    intro n
    induction n with
    | zero =>
        intro l hl _
        rw [List.eq_nil_of_length_eq_zero (Nat.le_zero.mp hl)]
        simp [dropDuplicates]
    | succ n ih =>
        intro l hl hnd
        cases l with
        | nil => simp [dropDuplicates]
        | cons x xs =>
            obtain ⟨hx, hxs⟩ := List.nodup_cons.mp hnd
            have hfil : xs.filter (fun y => y ≠ x) = xs := by
              rw [List.filter_eq_self]
              intro a ha
              simp only [ne_eq, decide_eq_true_eq]
              intro heq
              exact hx (heq ▸ ha)
            rw [dropDuplicates, hfil, ih xs (by simpa using hl) hxs]
  exact fun l => H l.length l le_rfl

theorem find?_collar (C : List CollarRow) (c : CollarRow)
    (hnd : (C.map (fun x => x.hole)).Nodup) (hc : c ∈ C) :
    C.find? (fun x => decide (x.hole = c.hole)) = some c := by
  induction C with
  | nil => simp at hc
  | cons a rest ih =>
      rw [List.map_cons, List.nodup_cons] at hnd
      rcases List.mem_cons.mp hc with h | h
      · subst h
        exact List.find?_cons_of_pos _ (by simp)
      · by_cases hac : a.hole = c.hole
        · exfalso
          exact hnd.1 (hac ▸ List.mem_map_of_mem (fun x => x.hole) h)
        · rw [List.find?_cons_of_neg _ (by simp [hac])]
          exact ih hnd.2 h

theorem desurveyOpt_eq_dedup (sinD cosD : ℚ → ℚ) (C : List CollarRow)
    (S : List SurveyRow) (A : List AssayRow)
    (hnd : (C.map (fun x => x.hole)).Nodup) :
    desurveyOpt sinD cosD C S A = dropDuplicates (desurvey sinD cosD C S A) := by
  unfold desurveyOpt desurvey
  rw [dropDuplicates_eq_self _ hnd]
  congr 1
  rw [List.map_map]
  apply congrArg List.flatten
  apply List.map_congr_left
  intro c hc
  show (match C.find? (fun x => decide (x.hole = c.hole)) with
    | some c' => holeBodyOpt sinD cosD S A c'
    | none => []) = holeBody sinD cosD S A c
  rw [find?_collar C c hnd hc]
  rfl


/-- C10: the optimized desurvey ends with a `drop_duplicates` pass
(`_optimize_output`), so its output table never contains two identical rows
and equals the de-duplication of the standard manager's output (per-hole
math being identical); the standard `DrillholeManager.desurvey` instead
produces exactly one output row per input assay row of each successfully
processed hole. -/
theorem optimized_dedup_vs_standard (sinD cosD : ℚ → ℚ) (C : List CollarRow)
    (S : List SurveyRow) (A : List AssayRow) (c : CollarRow)
    (svs : List SurveyRow) (ass : List AssayRow) (rows : List OutRow)
    (hnd : (C.map (fun x => x.hole)).Nodup)
    (hok : processHole sinD cosD c svs ass = .ok rows) :
    (desurveyOpt sinD cosD C S A).Nodup ∧
    desurveyOpt sinD cosD C S A = dropDuplicates (desurvey sinD cosD C S A) ∧
    rows.length = ass.length := by
  refine ⟨?_, desurveyOpt_eq_dedup sinD cosD C S A hnd,
    processHole_ok_length sinD cosD c svs ass rows hok⟩
  unfold desurveyOpt
  exact dropDuplicates_nodup _

/-- Witness for C10 on a one-hole input. -/
theorem optimized_dedup_vs_standard_witness :
    (([⟨"B", .num 1, .num 2, .num 3⟩] : List CollarRow).map (fun x => x.hole)).Nodup ∧
    processHole (fun q => q) (fun q => q) ⟨"B", .num 1, .num 2, .num 3⟩ [] [] =
      .ok [] ∧
    ((desurveyOpt (fun q => q) (fun q => q) [⟨"B", .num 1, .num 2, .num 3⟩] [] []).Nodup ∧
      desurveyOpt (fun q => q) (fun q => q) [⟨"B", .num 1, .num 2, .num 3⟩] [] [] =
        dropDuplicates (desurvey (fun q => q) (fun q => q)
          [⟨"B", .num 1, .num 2, .num 3⟩] [] []) ∧
      ([] : List OutRow).length = ([] : List AssayRow).length) :=
  ⟨by decide, by rfl,
    optimized_dedup_vs_standard (fun q => q) (fun q => q)
      [⟨"B", .num 1, .num 2, .num 3⟩] [] [] ⟨"B", .num 1, .num 2, .num 3⟩ [] [] []
      (by decide) (by rfl)⟩

end Geochem
